import Mathlib

/-!
Verification development for the structural text-search core of `trep`
(src/src/main.rs).  The tree produced by the external parser is embedded as
an inductive tree of nodes; a node handle is the path (list of child
indexes) from the root, so that root has no parent, node identity is path
equality, and the parent relation is acyclic by construction.  Source text
is a list of bytes; byte spans are decoded by a UTF-8 decoder mirroring
the Rust `str::from_utf8` validation.
-/

namespace Trep

/-- Test for a UTF-8 continuation byte (0x80..0xBF). -/
def isContByte (b : Nat) : Bool := 0x80 ≤ b && b ≤ 0xBF

/-- Decode a list of bytes as UTF-8, mirroring the validation performed by
Rust `str::from_utf8` (as called by `Node::utf8_text`): rejects overlong
encodings, surrogates and code points above 0x10FFFF.  Returns `none`
exactly when the bytes are not valid UTF-8. -/
def utf8Decode? (l : List Nat) : Option (List Char) :=
  match l with
  | [] => some []
  | b :: rest =>
    if b ≤ 0x7F then
      (utf8Decode? rest).map (Char.ofNat b :: ·)
    else if 0xC2 ≤ b && b ≤ 0xDF then
      match rest with
      | b1 :: rest' =>
        if isContByte b1 then
          (utf8Decode? rest').map (Char.ofNat ((b - 0xC0) * 0x40 + (b1 - 0x80)) :: ·)
        else none
      | _ => none
    else if 0xE0 ≤ b && b ≤ 0xEF then
      match rest with
      | b1 :: b2 :: rest' =>
        let lo1 : Nat := if b = 0xE0 then 0xA0 else 0x80
        let hi1 : Nat := if b = 0xED then 0x9F else 0xBF
        if (lo1 ≤ b1 && b1 ≤ hi1) && isContByte b2 then
          (utf8Decode? rest').map
            (Char.ofNat ((b - 0xE0) * 0x1000 + (b1 - 0x80) * 0x40 + (b2 - 0x80)) :: ·)
        else none
      | _ => none
    else if 0xF0 ≤ b && b ≤ 0xF4 then
      match rest with
      | b1 :: b2 :: b3 :: rest' =>
        let lo1 : Nat := if b = 0xF0 then 0x90 else 0x80
        let hi1 : Nat := if b = 0xF4 then 0x8F else 0xBF
        if (lo1 ≤ b1 && b1 ≤ hi1) && (isContByte b2 && isContByte b3) then
          (utf8Decode? rest').map
            (Char.ofNat ((b - 0xF0) * 0x40000 + (b1 - 0x80) * 0x1000 +
              (b2 - 0x80) * 0x40 + (b3 - 0x80)) :: ·)
        else none
      | _ => none
    else none

/-- Byte slice `src[s..e]` of the source buffer. -/
def sliceBytes (src : List Nat) (s e : Nat) : List Nat :=
  (src.drop s).take (e - s)

/-- Text of the byte span `[s, e)`, as produced by `Node::utf8_text`:
`none` models the `Err` of an invalid-UTF-8 span. -/
def utf8Text (src : List Nat) (s e : Nat) : Option (List Char) :=
  utf8Decode? (sliceBytes src s e)

/-- A syntax-tree node as exposed by the Tree Accessor: a kind label, the
field label of the edge from its parent (used by `child_by_field_name`),
a byte span `[startByte, endByte)`, and the ordered list of children. -/
inductive TNode : Type where
  | mk (kind : String) (fieldLabel : Option String) (startByte endByte : Nat)
      (children : List TNode)

/-- Kind label of a node. -/
def TNode.kind : TNode → String
  | .mk k _ _ _ _ => k

/-- Field label of the edge from the parent to this node. -/
def TNode.fieldLabel : TNode → Option String
  | .mk _ f _ _ _ => f

/-- Start of the byte span. -/
def TNode.startByte : TNode → Nat
  | .mk _ _ s _ _ => s

/-- End of the byte span. -/
def TNode.endByte : TNode → Nat
  | .mk _ _ _ e _ => e

/-- Ordered children of a node. -/
def TNode.children : TNode → List TNode
  | .mk _ _ _ _ cs => cs

/-- Lookup of the node at a path (list of child indexes) below `t`; `none`
when the path leaves the tree.  A path is the identity of a node handle:
`Node` equality in the source is path equality here. -/
def nodeAt (t : TNode) : List Nat → Option TNode
  | [] => some t
  | i :: p =>
    match t.children.get? i with
    | some c => nodeAt c p
    | none => none

/-- First child carrying the given field label, mirroring
`Node::child_by_field_name`. -/
def childByFieldName (t : TNode) (fname : String) : Option TNode :=
  t.children.find? (fun c => c.fieldLabel == some fname)

/-- Substring containment on character lists, mirroring `str::contains`
with a string pattern: `strContains hay pat` is true iff `pat` occurs in
`hay` as a contiguous run (case-sensitive, no normalization). -/
def strContains (hay pat : List Char) : Bool :=
  pat.isPrefixOf hay ||
    match hay with
    | [] => false
    | _ :: t => strContains t pat

/-- Errors a run of the program can stop on: a UTF-8 decode `Err`
propagated by `?`, a parse failure propagated by `?`, and the two panic
sites (`Option::unwrap` on the empty name list, string slicing off a char
boundary). -/
inductive RunError : Type where
  | decodeError
  | parseError
  | unwrapPanic
  | slicePanic
deriving DecidableEq

mutual

/-- Embedding of `find_leaf_nodes_with_text`: collects the paths of the
leaf (childless) nodes whose span text contains the search term, in the
order the recursion visits them; a leaf span that is not valid UTF-8
makes the whole call fail (the `?` on `utf8_text`). -/
def find_leaf_nodes_with_text (t : TNode) (q : List Char) (src : List Nat) :
    Except RunError (List (List Nat)) :=
  match t with
  | .mk _ _ s e [] =>
    match utf8Text src s e with
    | none => .error .decodeError
    | some txt => .ok (if strContains txt q then [[]] else [])
  | .mk _ _ _ _ (c :: cs) => findLeafChildren (c :: cs) 0 q src

/-- Child loop of `find_leaf_nodes_with_text` (`for i in 0..child_count`):
`i` is the index of the first node of `cs` in the parent, and the paths of
the matches found below child `i + k` are prefixed with `i + k`. -/
def findLeafChildren (cs : List TNode) (i : Nat) (q : List Char) (src : List Nat) :
    Except RunError (List (List Nat)) :=
  match cs with
  | [] => .ok []
  | c :: rest =>
    match find_leaf_nodes_with_text c q src with
    | .error e => .error e
    | .ok ms =>
      match findLeafChildren rest (i + 1) q src with
      | .error e => .error e
      | .ok ms' => .ok (ms.map (fun p => i :: p) ++ ms')

end

mutual

/-- Pre-order, depth-first, children-left-to-right enumeration of all node
paths of a tree: a node is listed before its descendants and the subtrees
are listed in source order.  This is the order the spec asserts for the
leaf matcher. -/
def preorderPaths (t : TNode) : List (List Nat) :=
  match t with
  | .mk _ _ _ _ cs => [] :: preorderPathsList cs 0

/-- Pre-order enumeration of the paths below a list of sibling subtrees
whose first element has child index `i`. -/
def preorderPathsList (cs : List TNode) (i : Nat) : List (List Nat) :=
  match cs with
  | [] => []
  | c :: rest => (preorderPaths c).map (fun p => i :: p) ++ preorderPathsList rest (i + 1)

end

/-- Decides whether the path `p` denotes a leaf of `t` whose span text is
valid UTF-8 and contains `q`: the membership predicate of the claim about
the leaf matcher. -/
def isLeafMatch (t : TNode) (q : List Char) (src : List Nat) (p : List Nat) : Bool :=
  match nodeAt t p with
  | some n =>
    n.children.isEmpty &&
      (match utf8Text src n.startByte n.endByte with
       | some txt => strContains txt q
       | none => false)
  | none => false

/-- Parent of a node handle: drop the last step of the path; the root
(empty path) has no parent. -/
def parentPath (p : List Nat) : Option (List Nat) :=
  match p with
  | [] => none
  | _ :: _ => some p.dropLast

/-- The `while let Some(node) = current_node` loop of
`collect_parent_hierarchy`: pushes the current node, then moves to its
parent, until the parent is absent. -/
def chainLoop (cur : Option (List Nat)) : List (List Nat) :=
  match cur with
  | none => []
  | some p => p :: chainLoop (parentPath p)
termination_by cur.elim 0 (fun p => p.length + 1)
decreasing_by
  cases p with
  | nil => simp [parentPath]
  | cons a q => simp [parentPath, List.length_dropLast]

/-- Embedding of `collect_parent_hierarchy`: the collected node-to-root
chain, reversed so index 0 is the root and the last entry is the node. -/
def collect_parent_hierarchy (p : List Nat) : List (List Nat) :=
  (chainLoop (some p)).reverse

/-- Embedding of `get_node_name`: for a node whose kind is
`class_definition` or `function_definition`, the text of the child in the
`name` field role; `None` for every other kind, for a missing name child,
and for a name child whose span is not valid UTF-8 (`ok()` discards the
decode error). -/
def get_node_name (n : TNode) (src : List Nat) : Option (List Char) :=
  if n.kind = "class_definition" || n.kind = "function_definition" then
    (childByFieldName n "name").bind (fun c => utf8Text src c.startByte c.endByte)
  else
    none

/-- The named projection built in `process_file`
(`hierarchy.iter().filter_map(|n| get_node_name(*n, ..).map(|name| (*n, name)))`):
the hierarchy nodes (as paths below `root`) paired with their resolved
names, keeping only nodes with a name. -/
def namedProjection (root : TNode) (src : List Nat) (hierarchy : List (List Nat)) :
    List (List Nat × List Char) :=
  hierarchy.filterMap
    (fun p => (nodeAt root p).bind
      (fun n => (get_node_name n src).map (fun nm => (p, nm))))

/-- The candidate-climbing loop of `matched_block`: starting from the
match node, stop when the parent is absent, when the grandparent is
absent, or when the grandparent is the anchor node `a` (`last_node`);
otherwise move to the parent and repeat. -/
def climb (c a : List Nat) : List Nat :=
  if c = [] then c
  else if c.dropLast = [] then c
  else if c.dropLast.dropLast = a then c
  else climb c.dropLast a
termination_by c.length
decreasing_by
  cases c with
  | nil => simp_all
  | cons x q => simp [List.length_dropLast]

/-- Character class of the `\s` of the Rust regex crate (Unicode
`White_Space`), used by the `\n\s+` pattern of `format_multiline`. -/
def isRegexWs (c : Char) : Bool :=
  c = ' ' || c = '\t' || c = '\n' || c = '\r' || c = '\x0b' || c = '\x0c' ||
    c = '\u0085' || c = ' ' || c = ' ' ||
    (0x2000 ≤ c.toNat && c.toNat ≤ 0x200A) ||
    c = ' ' || c = ' ' || c = ' ' || c = ' ' || c = '　'

/-- True when the list starts with a regex-whitespace character: the
`\s+` part of `\n\s+` can start here. -/
def wsHead (l : List Char) : Bool :=
  match l with
  | [] => false
  | d :: _ => isRegexWs d

/-- The join marker the replacement inserts: the source literal is the
three-character sequence U+00E2, U+2020, U+00A9 (the bytes of the file
give exactly these three code points). -/
def marker : List Char := ['â', '†', '©']

/-- Embedding of `format_multiline`:
`regex::Regex::new(r"\n\s+").replace_all(s, marker)`.  The scan copies
characters until a newline directly followed by a whitespace character is
found; that newline and the maximal whitespace run after it are replaced
by the marker and the scan resumes after the run (leftmost-first, greedy,
exactly the `replace_all` semantics for this pattern). -/
def format_multiline (l : List Char) : List Char :=
  match l with
  | [] => []
  | c :: rest =>
    if c = '\n' && wsHead rest then
      marker ++ format_multiline (rest.dropWhile isRegexWs)
    else
      c :: format_multiline rest
termination_by l.length
decreasing_by
  · simpa using Nat.lt_succ_of_le (List.dropWhile_sublist isRegexWs).length_le
  · simp

/-- Embedding of `matched_block`: climb from the match node as in the
source loop, then take the byte span of the final candidate from the
original source and flatten it with `format_multiline`.  `none` models
the panics of slicing a `str` outside a char boundary (and the impossible
case of an invalid path). -/
def matched_block (root : TNode) (m a : List Nat) (src : List Nat) :
    Option (List Char) :=
  match nodeAt root (climb m a) with
  | none => none
  | some n => (utf8Text src n.startByte n.endByte).map format_multiline

/-- The report line printed for one match:
`println!("{} {}: {}", fname, hierarchy_str, line)`. -/
def reportLine (fname hierarchyStr line : List Char) : List Char :=
  fname ++ [' '] ++ hierarchyStr ++ [':', ' '] ++ line

/-- The per-match loop of `process_file`: returns the printed lines, and
the error that stopped the loop when one occurred (lines printed before
the stop are kept).  For each match: build the hierarchy, project it to
the named nodes, `unwrap` the last named node (a panic when there is
none), join the names with the arrow separator, extract the block and
print. -/
def processMatches (root : TNode) (src : List Nat) (fname : List Char) :
    List (List Nat) → List (List Char) × Option RunError
  | [] => ([], none)
  | m :: rest =>
    let hierarchy := collect_parent_hierarchy m
    let nodesWithNames := namedProjection root src hierarchy
    match nodesWithNames.getLast? with
    | none => ([], some .unwrapPanic)
    | some (lastPath, _) =>
      let hierarchyStr :=
        List.intercalate ['-', '>']
          (hierarchy.filterMap
            (fun p => (nodeAt root p).bind (fun n => get_node_name n src)))
      match matched_block root m lastPath src with
      | none => ([], some .slicePanic)
      | some line =>
        let res := processMatches root src fname rest
        (reportLine fname hierarchyStr line :: res.1, res.2)

/-- Embedding of `process_file`: find the leaf matches (a decode error is
propagated by `?` with no output), then run the per-match report loop. -/
def process_file (root : TNode) (src : List Nat) (fname : List Char)
    (pattern : List Char) : List (List Char) × Option RunError :=
  match find_leaf_nodes_with_text root pattern src with
  | .error e => ([], some e)
  | .ok ms => processMatches root src fname ms

/-- One input file as the core sees it: a display name, the result of the
external parser (`None` models a parse failure), and the source bytes. -/
structure PFile : Type where
  name : List Char
  parsed : Option TNode
  src : List Nat

/-- Outcome of one file in the `main` loop: a parse failure becomes an
error via `.context(..)?`, otherwise the file is processed. -/
def fileOutcome (f : PFile) (pattern : List Char) : List (List Char) × Option RunError :=
  match f.parsed with
  | none => ([], some .parseError)
  | some tree => process_file tree f.src f.name pattern

/-- Embedding of the file loop of `main`: each file is processed in
order; the `?` operators make any per-file error (parse failure, decode
error) and any panic stop the whole run, so the remaining files are not
processed.  Returns all printed lines and the error that stopped the
run, if any. -/
def runFiles (files : List PFile) (pattern : List Char) :
    List (List Char) × Option RunError :=
  match files with
  | [] => ([], none)
  | f :: rest =>
    match fileOutcome f pattern with
    | (lines, some e) => (lines, some e)
    | (lines, none) =>
      let res := runFiles rest pattern
      (lines ++ res.1, res.2)

mutual

/-- Decides the span part of the data-model invariant: every node has
`startByte ≤ endByte` and every child span is contained in the span of
its parent. -/
def spanWf (t : TNode) : Bool :=
  match t with
  | .mk _ _ s e cs => (s ≤ e) && spanWfList s e cs

/-- Span invariant for a list of siblings below a parent span `[s, e)`. -/
def spanWfList (s e : Nat) (cs : List TNode) : Bool :=
  match cs with
  | [] => true
  | c :: rest =>
    ((s ≤ c.startByte && c.endByte ≤ e) && spanWf c) && spanWfList s e rest

end

/-- Number of `\n\s+` runs that `format_multiline` replaces, following the
same leftmost-first greedy scan. -/
def countRuns (l : List Char) : Nat :=
  match l with
  | [] => 0
  | c :: rest =>
    if c = '\n' && wsHead rest then
      1 + countRuns (rest.dropWhile isRegexWs)
    else
      countRuns rest
termination_by l.length
decreasing_by
  · simpa using Nat.lt_succ_of_le (List.dropWhile_sublist isRegexWs).length_le
  · simp

/-- Number of lines of a text: one more than the number of newlines. -/
def lineCount (l : List Char) : Nat := l.count '\n' + 1

/-- Splitting a text on the join marker (the spec-side re-splitting of a
flattened block): pieces between non-overlapping leftmost occurrences of
the three-character marker. -/
def splitOnMarker (l : List Char) : List (List Char) :=
  if marker.isPrefixOf l then
    [] :: splitOnMarker (l.drop marker.length)
  else
    match l with
    | [] => [[]]
    | c :: rest =>
      match splitOnMarker rest with
      | [] => [[c]]
      | h :: t => (c :: h) :: t
termination_by l.length
decreasing_by
  · rename_i hpre
    cases l with
    | nil => simp [marker, List.isPrefixOf] at hpre
    | cons x q => simp [marker]; omega
  · simp

/-- Decides that a text has no newline directly followed by a whitespace
character, i.e. that the `\n\s+` pattern no longer matches anywhere. -/
def noNlWsPair (l : List Char) : Bool :=
  match l with
  | c :: d :: rest => !(c = '\n' && isRegexWs d) && noNlWsPair (d :: rest)
  | _ => true

/-- Fuel-indexed version of the `collect_parent_hierarchy` loop: `none`
when the fuel runs out before the loop stops, so
`chainLoopFuel f cur = some r` states that the loop stops within `f`
iterations with result `r`. -/
def chainLoopFuel (fuel : Nat) (cur : Option (List Nat)) :
    Option (List (List Nat)) :=
  match cur with
  | none => some []
  | some p =>
    match fuel with
    | 0 => none
    | fuel' + 1 => (chainLoopFuel fuel' (parentPath p)).map (p :: ·)

/-- Fuel-indexed version of the climbing loop of `matched_block`: `none`
when the fuel runs out before a stop condition is reached. -/
def climbFuel (fuel : Nat) (c a : List Nat) : Option (List Nat) :=
  match fuel with
  | 0 => none
  | fuel' + 1 =>
    if c = [] then some c
    else if c.dropLast = [] then some c
    else if c.dropLast.dropLast = a then some c
    else climbFuel fuel' c.dropLast a

/-! Concrete example data used by the witness theorems: the tree of the
Python source `def f(): x`, shaped like the tree-sitter Python grammar
output (a `module` containing a `function_definition` whose `name` field
child is the identifier `f` and whose body contains the identifier `x`). -/

/-- Name child (field `name`) of the example function, the identifier `f`. -/
def egName : TNode := .mk "identifier" (some "name") 4 5 []

/-- Leaf identifier `x` in the example tree. -/
def egLeafX : TNode := .mk "identifier" none 9 10 []

/-- Example `function_definition` node. -/
def egFd : TNode := .mk "function_definition" none 0 10 [egName, egLeafX]

/-- Example root `module` node. -/
def egRoot : TNode := .mk "module" none 0 10 [egFd]

/-- Example source bytes: `def f(): x`. -/
def egSrc : List Nat := [100, 101, 102, 32, 102, 40, 41, 58, 32, 120]

/-! Lemmas about the parent-walk loop. -/

/-- Unfolding equation of the parent-walk loop. -/
theorem chainLoop_some_eq (p : List Nat) :
    chainLoop (some p) = p :: chainLoop (parentPath p) := by
  rw [chainLoop]

/-- The parent walk from a node visits one node per ancestor-or-self:
depth plus one nodes in total. -/
theorem chainLoop_length (p : List Nat) :
    (chainLoop (some p)).length = p.length + 1 := by
  rw [chainLoop_some_eq]
  cases p with
  | nil => simp [parentPath, chainLoop]
  | cons x q =>
    have ih := chainLoop_length ((x :: q).dropLast)
    simp only [parentPath, List.length_cons]
    simp [ih, List.length_dropLast]
termination_by p.length
decreasing_by simp [List.length_dropLast]

/-- The parent walk always ends at the root (the empty path). -/
theorem chainLoop_getLast (p : List Nat) :
    (chainLoop (some p)).getLast? = some [] := by
  rw [chainLoop_some_eq]
  cases p with
  | nil => simp [parentPath, chainLoop]
  | cons x q =>
    have ih := chainLoop_getLast ((x :: q).dropLast)
    have hne : chainLoop (some ((x :: q).dropLast)) ≠ [] := by
      have := chainLoop_length ((x :: q).dropLast)
      intro hcon
      rw [hcon] at this
      simp at this
    simp only [parentPath]
    cases hch : chainLoop (some ((x :: q).dropLast)) with
    | nil => exact absurd hch hne
    | cons b t =>
      rw [hch] at ih
      simpa [List.getLast?_cons_cons] using ih
termination_by p.length
decreasing_by simp [List.length_dropLast]

/-- C7.  For every node of a tree (any path that resolves in the tree),
`collect_parent_hierarchy` returns a sequence that starts with the root,
ends with the node itself, and has length depth + 1 (the reversed chain
of parent links). -/
theorem trep_C7_hierarchy_root_to_node (t : TNode) (p : List Nat)
    (h : (nodeAt t p).isSome) :
    (collect_parent_hierarchy p).head? = some [] ∧
    (collect_parent_hierarchy p).getLast? = some p ∧
    (collect_parent_hierarchy p).length = p.length + 1 := by
  refine ⟨?_, ?_, ?_⟩
  · rw [collect_parent_hierarchy, List.head?_reverse]
    exact chainLoop_getLast p
  · rw [collect_parent_hierarchy, List.getLast?_reverse, chainLoop_some_eq]
    simp
  · rw [collect_parent_hierarchy, List.length_reverse]
    exact chainLoop_length p

/-- Witness for C7 at the node `x` (path [0, 1]) of the example tree. -/
theorem trep_C7_witness :
    (nodeAt egRoot [0, 1]).isSome = true ∧
    (collect_parent_hierarchy [0, 1]).head? = some [] ∧
    (collect_parent_hierarchy [0, 1]).getLast? = some [0, 1] ∧
    (collect_parent_hierarchy [0, 1]).length = 2 + 1 := by
  have h : (nodeAt egRoot [0, 1]).isSome = true := by decide
  have := trep_C7_hierarchy_root_to_node egRoot [0, 1] h
  exact ⟨h, this.1, this.2.1, this.2.2⟩

/-! Lemmas for the termination claim: enough fuel makes the fuel-indexed
loops stop with the same result as the loops themselves. -/

/-- Depth plus one iterations are enough fuel for the parent walk. -/
theorem chainLoopFuel_enough (p : List Nat) :
    chainLoopFuel (p.length + 1) (some p) = some (chainLoop (some p)) := by
  cases p with
  | nil => rw [chainLoop_some_eq]; simp [chainLoopFuel, parentPath, chainLoop]
  | cons x q =>
    have ih := chainLoopFuel_enough ((x :: q).dropLast)
    have hdl : (x :: q).dropLast.length = q.length := by simp
    rw [hdl] at ih
    rw [chainLoop_some_eq]
    show (chainLoopFuel (q.length + 1) (some ((x :: q).dropLast))).map ((x :: q) :: ·) =
      some ((x :: q) :: chainLoop (parentPath (x :: q)))
    rw [ih]
    simp [parentPath]
termination_by p.length
decreasing_by simp [List.length_dropLast]

/-- Depth plus one iterations are enough fuel for the climbing loop. -/
theorem climbFuel_enough (c a : List Nat) :
    climbFuel (c.length + 1) c a = some (climb c a) := by
  rw [climb]
  show (if c = [] then some c
      else if c.dropLast = [] then some c
      else if c.dropLast.dropLast = a then some c
      else climbFuel c.length c.dropLast a) = _
  by_cases h1 : c = []
  · simp [h1]
  · by_cases h2 : c.dropLast = []
    · simp [h1, h2]
    · by_cases h3 : c.dropLast.dropLast = a
      · simp [h1, h2, h3]
      · have ih := climbFuel_enough c.dropLast a
        have hlen : c.dropLast.length + 1 = c.length := by
          cases c with
          | nil => exact absurd rfl h1
          | cons x q => simp
        rw [hlen] at ih
        simp [h1, h2, h3, ih]
termination_by c.length
decreasing_by
  cases c with
  | nil => simp_all
  | cons x q => simp [List.length_dropLast]

/-- C9.  Both parent-directed loops terminate on every node of a finite
tree: with fuel depth + 1 the fuel-indexed versions of the
`collect_parent_hierarchy` walk and of the `matched_block` climb stop
(result `some`), agreeing with the total functions, for any anchor. -/
theorem trep_C9_loops_terminate (t : TNode) (p a : List Nat)
    (h : (nodeAt t p).isSome) :
    chainLoopFuel (p.length + 1) (some p) = some (chainLoop (some p)) ∧
    climbFuel (p.length + 1) p a = some (climb p a) :=
  ⟨chainLoopFuel_enough p, climbFuel_enough p a⟩

/-- Witness for C9 at the node `x` (path [0, 1]) of the example tree,
with the function node as anchor. -/
theorem trep_C9_witness :
    (nodeAt egRoot [0, 1]).isSome = true ∧
    chainLoopFuel 3 (some [0, 1]) = some (chainLoop (some [0, 1])) ∧
    climbFuel 3 [0, 1] [0] = some (climb [0, 1] [0]) := by
  have h : (nodeAt egRoot [0, 1]).isSome = true := by decide
  have := trep_C9_loops_terminate egRoot [0, 1] [0] h
  exact ⟨h, this.1, this.2⟩

/-- C8.  Every entry of the named projection is a node whose kind is a
recognized named-scope kind (`class_definition` or `function_definition`)
and that has a `name`-field child whose span text resolves; nodes without
a resolvable name are never given a synthesized one. -/
theorem trep_C8_named_projection_resolved (root : TNode) (src : List Nat)
    (hierarchy : List (List Nat)) (p : List Nat) (nm : List Char)
    (h : (p, nm) ∈ namedProjection root src hierarchy) :
    ∃ n, nodeAt root p = some n ∧
      (n.kind = "class_definition" ∨ n.kind = "function_definition") ∧
      ∃ c, childByFieldName n "name" = some c ∧
        utf8Text src c.startByte c.endByte = some nm := by
  simp only [namedProjection, List.mem_filterMap] at h
  obtain ⟨q, _, hsome⟩ := h
  rw [Option.bind_eq_some] at hsome
  obtain ⟨n, hn, hmap⟩ := hsome
  rw [Option.map_eq_some'] at hmap
  obtain ⟨nm', hname, heq⟩ := hmap
  have hqp : q = p := congrArg Prod.fst heq
  have hnm : nm' = nm := congrArg Prod.snd heq
  subst hqp; subst hnm
  refine ⟨n, hn, ?_, ?_⟩
  · rw [get_node_name] at hname
    by_cases hkind : (n.kind = "class_definition" || n.kind = "function_definition") = true
    · simpa using hkind
    · rw [if_neg (by simpa using hkind)] at hname
      exact absurd hname (by simp)
  · rw [get_node_name] at hname
    by_cases hkind : (n.kind = "class_definition" || n.kind = "function_definition") = true
    · rw [if_pos hkind] at hname
      exact Option.bind_eq_some.mp hname
    · rw [if_neg (by simpa using hkind)] at hname
      exact absurd hname (by simp)

/-- Witness for C8: in the example tree, the projection of the hierarchy
of the match contains the function node with name `f`, and it resolves as
the claim states. -/
theorem trep_C8_witness :
    ([0], ['f']) ∈ namedProjection egRoot egSrc [[], [0], [0, 1]] ∧
    ∃ n, nodeAt egRoot [0] = some n ∧
      (n.kind = "class_definition" ∨ n.kind = "function_definition") ∧
      ∃ c, childByFieldName n "name" = some c ∧
        utf8Text egSrc c.startByte c.endByte = some ['f'] := by
  have hmem : ([0], ['f']) ∈ namedProjection egRoot egSrc [[], [0], [0, 1]] := by
    decide
  exact ⟨hmem,
    trep_C8_named_projection_resolved egRoot egSrc [[], [0], [0, 1]] [0] ['f'] hmem⟩

/-! Lemmas about the newline-flattening formatter. -/

/-- Appending a character in front preserves the absence of a
newline-whitespace pair, as long as the character is not a newline that
lands directly before a whitespace head. -/
theorem noNlWsPair_cons (a : Char) (l : List Char)
    (h : a = '\n' → ∀ x, l.head? = some x → isRegexWs x = false)
    (hl : noNlWsPair l = true) : noNlWsPair (a :: l) = true := by
  cases l with
  | nil => simp [noNlWsPair]
  | cons b t =>
    have hb : (a = '\n' && isRegexWs b) = false := by
      by_cases ha : a = '\n'
      · have := h ha b (by simp)
        simp [this]
      · simp [ha]
    simp [noNlWsPair, hb, hl]

/-- The head of a formatted text whose input does not start with
whitespace is never a whitespace character (it is either a copied
non-whitespace character or the head of the marker). -/
theorem format_multiline_head_not_ws (l : List Char) (h : wsHead l = false) :
    ∀ x, (format_multiline l).head? = some x → isRegexWs x = false := by
  intro x hx
  cases l with
  | nil => simp [format_multiline] at hx
  | cons c rest =>
    rw [format_multiline] at hx
    by_cases hc : (c = '\n' && wsHead rest) = true
    · rw [if_pos hc] at hx
      have : x = 'â' := by
        have := hx
        simp [marker] at this
        exact this.symm
      subst this
      decide
    · rw [if_neg hc] at hx
      have : x = c := by
        have := hx
        simp at this
        exact this.symm
      subst this
      simpa [wsHead] using h

/-- After flattening, no newline is directly followed by a whitespace
character: every occurrence of the `\n\s+` pattern has been replaced. -/
theorem noNlWsPair_format_multiline (l : List Char) :
    noNlWsPair (format_multiline l) = true := by
  cases l with
  | nil => simp [format_multiline, noNlWsPair]
  | cons c rest =>
    rw [format_multiline]
    by_cases hc : (c = '\n' && wsHead rest) = true
    · rw [if_pos hc]
      have ih := noNlWsPair_format_multiline (rest.dropWhile isRegexWs)
      have h1 : noNlWsPair ('©' :: format_multiline (rest.dropWhile isRegexWs)) = true :=
        noNlWsPair_cons _ _ (by intro hcon; exact absurd hcon (by decide)) ih
      have h2 : noNlWsPair ('†' :: '©' :: format_multiline (rest.dropWhile isRegexWs)) = true :=
        noNlWsPair_cons _ _ (by intro hcon; exact absurd hcon (by decide)) h1
      exact noNlWsPair_cons _ _ (by intro hcon; exact absurd hcon (by decide)) h2
    · rw [if_neg hc]
      have ih := noNlWsPair_format_multiline rest
      refine noNlWsPair_cons _ _ ?_ ih
      intro hcnl
      have hws : wsHead rest = false := by
        by_cases hw : wsHead rest = true
        · exact absurd (by simp [hcnl, hw]) hc
        · simpa using hw
      exact format_multiline_head_not_ws rest hws
termination_by l.length
decreasing_by
  · simpa using Nat.lt_succ_of_le (List.dropWhile_sublist isRegexWs).length_le
  · simp

/-- A text without newlines is left unchanged by the flattening. -/
theorem format_multiline_of_no_newline (l : List Char) (h : '\n' ∉ l) :
    format_multiline l = l := by
  induction l with
  | nil => simp [format_multiline]
  | cons c rest ih =>
    have hc : c ≠ '\n' := fun hcon => h (hcon ▸ List.mem_cons_self c rest)
    rw [format_multiline, if_neg (by simp [hc])]
    rw [ih (fun hcon => h (List.mem_cons_of_mem c hcon))]

/-- C5 (amended).  The flattening replaces every maximal
newline-then-whitespace run: afterwards no newline is directly followed
by whitespace, and an input without newlines (in particular its
whitespace runs) is left completely unchanged.  A newline not followed by
whitespace survives, so the result is not always newline-free. -/
theorem trep_C5_format_flattens (l : List Char) :
    noNlWsPair (format_multiline l) = true ∧
    ('\n' ∉ l → format_multiline l = l) :=
  ⟨noNlWsPair_format_multiline l, format_multiline_of_no_newline l⟩

/-- Witness for C5: a multi-line block is flattened to a text with no
newline-whitespace pair, and a newline-free text passes through
unchanged. -/
theorem trep_C5_witness :
    noNlWsPair (format_multiline ['a', '\n', ' ', 'b']) = true ∧
    format_multiline ['x', 'y'] = ['x', 'y'] :=
  ⟨(trep_C5_format_flattens ['a', '\n', ' ', 'b']).1,
    (trep_C5_format_flattens ['x', 'y']).2 (by decide)⟩

/-- Counterexample to C5 as stated: a newline followed directly by a
non-whitespace character is not matched by `\n\s+`, so it survives the
replacement and the result still contains a newline, hence is not a
single display line. -/
theorem trep_C5_counterexample :
    format_multiline ['a', '\n', 'b'] = ['a', '\n', 'b'] ∧
    '\n' ∈ format_multiline ['a', '\n', 'b'] := by
  have h : format_multiline ['a', '\n', 'b'] = ['a', '\n', 'b'] := by
    simp [format_multiline, wsHead, isRegexWs]
  exact ⟨h, by rw [h]; decide⟩

/-- Splitting never produces an empty list of pieces. -/
theorem splitOnMarker_ne_nil (l : List Char) : splitOnMarker l ≠ [] := by
  rw [splitOnMarker.eq_def]
  split
  · simp
  · split
    · simp
    · split <;> simp

/-- Prepending a character that does not open a marker occurrence adds it
to the first piece and leaves the piece count unchanged. -/
theorem splitOnMarker_cons_not_prefix (c : Char) (X : List Char)
    (h : ¬ (marker.isPrefixOf (c :: X) = true)) :
    (splitOnMarker (c :: X)).length = (splitOnMarker X).length := by
  rw [splitOnMarker.eq_def, if_neg h]
  split
  · rename_i heq
    simp at heq
  · rename_i a t heq
    obtain ⟨rfl, rfl⟩ : c = a ∧ X = t := by
      injection heq with h1 h2
      exact ⟨h1, h2⟩
    split
    · rename_i heq2
      exact absurd heq2 (splitOnMarker_ne_nil X)
    · rename_i b u heq2
      rw [heq2]
      simp

/-- Each replaced run contributes exactly one piece boundary: the number
of pieces of the flattened text is the number of replaced runs plus one,
provided the input does not itself contain marker characters. -/
theorem splitOnMarker_format_multiline (l : List Char) :
    (∀ c ∈ l, c ∉ marker) →
    (splitOnMarker (format_multiline l)).length = countRuns l + 1 := by
  induction l using format_multiline.induct with
  | case1 =>
    intro _
    rw [format_multiline, countRuns, splitOnMarker.eq_def]
    simp [marker, List.isPrefixOf]
  | case2 c rest hc ih =>
    intro h
    rw [format_multiline, countRuns, if_pos hc, if_pos hc]
    have hsub : ∀ x ∈ rest.dropWhile isRegexWs, x ∉ marker := fun x hx =>
      h x (List.mem_cons_of_mem c ((List.dropWhile_sublist isRegexWs).subset hx))
    rw [splitOnMarker.eq_def,
      if_pos (by rw [ List.isPrefixOf_iff_prefix]; exact ⟨_, rfl⟩)]
    rw [List.drop_left marker]
    simp [ih hsub]
    omega
  | case3 c rest hc ih =>
    intro h
    rw [format_multiline, countRuns, if_neg hc, if_neg hc]
    have hrest : ∀ x ∈ rest, x ∉ marker := fun x hx =>
      h x (List.mem_cons_of_mem c hx)
    have hcm : c ∉ marker := h c (List.mem_cons_self c rest)
    have hca : c ≠ 'â' := fun hcon => hcm (by rw [hcon]; simp [marker])
    have hpre : ¬ (marker.isPrefixOf (c :: format_multiline rest) = true) := by
      intro hptrue
      rw [ List.isPrefixOf_iff_prefix] at hptrue
      have hptrue' : 'â' :: ['†', '©'] <+: c :: format_multiline rest := by
        simpa [marker] using hptrue
      exact hca (List.cons_prefix_cons.mp hptrue').1.symm
    rw [ splitOnMarker_cons_not_prefix c _ hpre]
    exact ih hrest

/-- A replaced run consumes at least one newline, so there are at most as
many runs as newlines. -/
theorem countRuns_le_count_newline (l : List Char) :
    countRuns l ≤ l.count '\n' := by
  induction l using countRuns.induct with
  | case1 => simp [countRuns]
  | case2 c rest hc ih =>
    rw [countRuns, if_pos hc]
    have hcn : c = '\n' := by
      rcases Bool.and_eq_true_iff.mp hc with ⟨h1, _⟩
      simpa using h1
    have hmono : (rest.dropWhile isRegexWs).count '\n' ≤ rest.count '\n' :=
      (List.dropWhile_sublist isRegexWs).count_le '\n'
    rw [hcn, List.count_cons_self]
    omega
  | case3 c rest hc ih =>
    rw [countRuns, if_neg hc]
    calc countRuns rest ≤ rest.count '\n' := ih
      _ ≤ (c :: rest).count '\n' := by
          rw [List.count_cons]
          omega

/-- C6 (amended).  Splitting the flattened block on the join marker
yields one piece per replaced newline-whitespace run plus one, and this
is at most the original line count; it equals the line count only when
every newline heads its own replaced run, so in general lines can be
lost (the counterexample shows a strict loss). -/
theorem trep_C6_split_counts_runs (l : List Char) (h : ∀ c ∈ l, c ∉ marker) :
    (splitOnMarker (format_multiline l)).length = countRuns l + 1 ∧
    countRuns l + 1 ≤ lineCount l :=
  ⟨splitOnMarker_format_multiline l h, by
    have := countRuns_le_count_newline l
    rw [lineCount]
    omega⟩

/-- Witness for C6: on `a\n b` one run is replaced and re-splitting gives
two pieces, matching the two original lines. -/
theorem trep_C6_witness :
    (splitOnMarker (format_multiline ['a', '\n', ' ', 'b'])).length = 2 ∧
    lineCount ['a', '\n', ' ', 'b'] = 2 := by
  have hmem : ∀ c ∈ ['a', '\n', ' ', 'b'], c ∉ marker := by decide
  have h := trep_C6_split_counts_runs ['a', '\n', ' ', 'b'] hmem
  have hruns : countRuns ['a', '\n', ' ', 'b'] = 1 := by
    simp [countRuns, wsHead, isRegexWs]
  rw [hruns] at h
  exact ⟨h.1, by decide⟩

/-- Counterexample to C6 as stated: `a\nb` has two lines, but the newline
is not followed by whitespace, so nothing is replaced and re-splitting
the flattened text yields a single piece, not two. -/
theorem trep_C6_counterexample :
    (splitOnMarker (format_multiline ['a', '\n', 'b'])).length = 1 ∧
    lineCount ['a', '\n', 'b'] = 2 := by
  have h : format_multiline ['a', '\n', 'b'] = ['a', '\n', 'b'] := by
    simp [format_multiline, wsHead, isRegexWs]
  rw [h]
  constructor
  · simp [splitOnMarker, marker, List.isPrefixOf]
  · decide

/-! Lemmas about the climbing loop of the block extractor. -/

/-- The climb only ever moves towards the root: its result is an
ancestor-or-self of the starting node (a path prefix). -/
theorem climb_prefix (c a : List Nat) : climb c a <+: c := by
  induction c, a using climb.induct with
  | case1 a => simp [climb]
  | case2 c a h1 h2 => rw [climb, if_neg h1, if_pos h2]
  | case3 c h1 h2 => rw [climb, if_neg h1, if_neg h2, if_pos rfl]
  | case4 c a h1 h2 h3 ih =>
    rw [climb, if_neg h1, if_neg h2, if_neg h3]
    exact ih.trans ( List.dropLast_prefix _)

/-- A list whose `dropLast` is nonempty has length at least two. -/
theorem two_le_length_of_dropLast_ne_nil (c : List Nat) (h : ¬ c.dropLast = []) :
    2 ≤ c.length := by
  by_contra hcon
  push_neg at hcon
  apply h
  have hlen : c.dropLast.length = 0 := by
    rw [List.length_dropLast]
    omega
  exact List.length_eq_zero.mp hlen

/-- Dropping the last element twice is taking all but the last two. -/
theorem dropLast_dropLast_eq_take (c : List Nat) :
    c.dropLast.dropLast = c.take (c.length - 2) := by
  rw [List.dropLast_eq_take, List.dropLast_eq_take, List.take_take,
    List.length_take]
  congr 1
  omega

/-- When the anchor is a proper ancestor at least two levels above the
match, the climb stops exactly at the node whose grandparent is the
anchor: the prefix of the match path of length `anchor depth + 2`. -/
theorem climb_eq_take (m a : List Nat) :
    a <+: m → a.length + 2 ≤ m.length → climb m a = m.take (a.length + 2) := by
  induction m, a using climb.induct with
  | case1 a =>
    intro _ hlen
    simp at hlen
  | case2 c a h1 h2 =>
    intro _ hlen
    have := two_le_length_of_dropLast_ne_nil c
    have hc1 : c.length ≤ 1 := by
      by_contra hcon
      push_neg at hcon
      have hdl : c.dropLast.length = c.length - 1 := List.length_dropLast c
      have : c.dropLast ≠ [] := by
        intro hnil
        rw [hnil] at hdl
        simp at hdl
        omega
      exact this h2
    omega
  | case3 c h1 h2 =>
    intro _ _
    rw [climb, if_neg h1, if_neg h2, if_pos rfl]
    have hge : 2 ≤ c.length := two_le_length_of_dropLast_ne_nil c h2
    have hlen2 : c.dropLast.dropLast.length = c.length - 2 := by
      rw [List.length_dropLast, List.length_dropLast]
      omega
    have heq : c.dropLast.dropLast.length + 2 = c.length := by omega
    rw [heq, List.take_length]
  | case4 c a h1 h2 h3 ih =>
    intro hpre hlen
    rw [climb, if_neg h1, if_neg h2, if_neg h3]
    have hge : 2 ≤ c.length := two_le_length_of_dropLast_ne_nil c h2
    have hne : a.length + 2 ≠ c.length := by
      intro heq
      apply h3
      rw [dropLast_dropLast_eq_take]
      have hta : a = c.take a.length := List.prefix_iff_eq_take.mp hpre
      have hl : c.length - 2 = a.length := by omega
      rw [hl, ← hta]
    have hlt : a.length + 2 ≤ c.dropLast.length := by
      rw [List.length_dropLast]
      omega
    have hpre' : a <+: c.dropLast := by
      rw [List.dropLast_eq_take]
      refine List.prefix_take_iff.mpr ⟨hpre, ?_⟩
      rw [List.length_dropLast] at hlt
      omega
    rw [ih hpre' hlt, List.dropLast_eq_take, List.take_take]
    congr 1
    rw [List.length_dropLast] at hlt
    omega

/-! Concrete tree for the block-extractor claims: the Python source
`def f():\n    x=1\n    y=2` with a `module` root, a named
`function_definition`, a `block` body holding two statements, and the
match inside the first statement. -/

/-- Name child `f` of the counterexample function. -/
def cxName : TNode := .mk "identifier" (some "name") 4 5 []

/-- Leaf `x=1` (first statement), span [13, 16). -/
def cxAsg1 : TNode := .mk "assignment" none 13 16 []

/-- Leaf `y=2` (second statement), span [21, 24). -/
def cxAsg2 : TNode := .mk "assignment" none 21 24 []

/-- First `expression_statement`, span [13, 16). -/
def cxStmt1 : TNode := .mk "expression_statement" none 13 16 [cxAsg1]

/-- Second `expression_statement`, span [21, 24). -/
def cxStmt2 : TNode := .mk "expression_statement" none 21 24 [cxAsg2]

/-- Function body `block`, span [13, 24): both statements and the
newline-indentation between them. -/
def cxBody : TNode := .mk "block" none 13 24 [cxStmt1, cxStmt2]

/-- The named `function_definition`, span [0, 24). -/
def cxFd : TNode := .mk "function_definition" none 0 24 [cxName, cxBody]

/-- Root `module` of the counterexample tree. -/
def cxRoot : TNode := .mk "module" none 0 24 [cxFd]

/-- Bytes of `def f():\n    x=1\n    y=2`. -/
def cxSrc : List Nat :=
  [100, 101, 102, 32, 102, 40, 41, 58, 10, 32, 32, 32, 32, 120, 61, 49,
   10, 32, 32, 32, 32, 121, 61, 50]

/-- C4 (amended).  When the match sits at least two levels below the
anchor node, the climbing loop stops at the ancestor of the match whose
grandparent is the anchor — the direct child of the direct child of the
innermost named scope on the path of the match — and `matched_block`
returns the span text of that node, newline-flattened.  (For a match in a
statement of a Python function this is that one statement, because the
function body `block` is the intermediate level.) -/
theorem trep_C4_block_is_grandchild_of_anchor (t : TNode) (m a : List Nat)
    (src : List Nat) (h1 : a <+: m) (h2 : a.length + 2 ≤ m.length) :
    climb m a = m.take (a.length + 2) ∧
    matched_block t m a src =
      (nodeAt t (m.take (a.length + 2))).bind
        (fun n => (utf8Text src n.startByte n.endByte).map format_multiline) := by
  have hc := climb_eq_take m a h1 h2
  refine ⟨hc, ?_⟩
  rw [matched_block, hc]
  cases nodeAt t (m.take (a.length + 2)) with
  | none => rfl
  | some n => rfl

/-- Witness for the amended C4 on the counterexample tree: the match
`x=1` sits two levels below the function node, and the reported block is
exactly the first statement. -/
theorem trep_C4_witness :
    climb [0, 1, 0, 0] [0] = [0, 1, 0] ∧
    matched_block cxRoot [0, 1, 0, 0] [0] cxSrc = some ['x', '=', '1'] := by
  have h := trep_C4_block_is_grandchild_of_anchor cxRoot [0, 1, 0, 0] [0] cxSrc
    (by decide) (by decide)
  refine ⟨by rw [h.1]; decide, ?_⟩
  rw [h.2]
  show (utf8Text cxSrc 13 16).map format_multiline = some ['x', '=', '1']
  have htxt : utf8Text cxSrc 13 16 = some ['x', '=', '1'] := by decide
  rw [htxt]
  simp [format_multiline, wsHead, isRegexWs]

/-- Counterexample to C4 as stated: in the counterexample tree the direct
child of the innermost named scope containing the match is the function
body `block` (path [0, 1], flattened text `x=1` marker `y=2`), but
`matched_block` returns only the first statement `x=1` — the grandchild,
not the direct child. -/
theorem trep_C4_counterexample :
    matched_block cxRoot [0, 1, 0, 0] [0] cxSrc = some ['x', '=', '1'] ∧
    nodeAt cxRoot [0, 1] = some cxBody ∧
    (utf8Text cxSrc cxBody.startByte cxBody.endByte).map format_multiline =
      some (['x', '=', '1'] ++ marker ++ ['y', '=', '2']) ∧
    some ['x', '=', '1'] ≠
      some (['x', '=', '1'] ++ marker ++ ['y', '=', '2']) := by
  refine ⟨?_, rfl, ?_, by simp [marker]⟩
  · rw [matched_block]
    have hcl : climb [0, 1, 0, 0] [0] = [0, 1, 0] :=
      climb_eq_take [0, 1, 0, 0] [0] (by decide) (by decide)
    rw [hcl]
    show (utf8Text cxSrc 13 16).map format_multiline = some ['x', '=', '1']
    have htxt : utf8Text cxSrc 13 16 = some ['x', '=', '1'] := by decide
    rw [htxt]
    simp [format_multiline, wsHead, isRegexWs]
  · show (utf8Text cxSrc 13 24).map format_multiline = _
    have htxt : utf8Text cxSrc 13 24 =
      some ['x', '=', '1', '\n', ' ', ' ', ' ', ' ', 'y', '=', '2'] := by decide
    rw [htxt]
    have : format_multiline ['x', '=', '1', '\n', ' ', ' ', ' ', ' ', 'y', '=', '2'] =
        ['x', '=', '1'] ++ marker ++ ['y', '=', '2'] := by
      simp [format_multiline, wsHead, isRegexWs, marker]
    rw [Option.map_some', this]

/-! Span containment along parent links, from the data-model invariant. -/

/-- Lookup in a well-formed sibling list: every child found by index has
its span inside the parent span and is itself well-formed. -/
theorem spanWfList_get (s e : Nat) (cs : List TNode) (i : Nat) (c : TNode)
    (hwf : spanWfList s e cs = true) (hg : cs.get? i = some c) :
    (s ≤ c.startByte ∧ c.endByte ≤ e) ∧ spanWf c = true := by
  induction cs generalizing i with
  | nil => simp at hg
  | cons c0 rest ih =>
    rw [spanWfList] at hwf
    simp only [Bool.and_eq_true] at hwf
    obtain ⟨⟨hspan, hc0⟩, hrest⟩ := hwf
    cases i with
    | zero =>
      rw [List.get?_cons_zero] at hg
      cases hg
      exact ⟨by simpa using hspan, hc0⟩
    | succ j =>
      rw [List.get?_cons_succ] at hg
      exact ih j hrest hg

/-- Resolving a path in a well-formed tree lands inside the span of the
starting node, at a node that is itself well-formed. -/
theorem nodeAt_span_within (p : List Nat) (t n : TNode)
    (hwf : spanWf t = true) (hp : nodeAt t p = some n) :
    t.startByte ≤ n.startByte ∧ n.endByte ≤ t.endByte ∧ spanWf n = true := by
  induction p generalizing t with
  | nil =>
    rw [nodeAt] at hp
    cases hp
    exact ⟨le_refl _, le_refl _, hwf⟩
  | cons i p' ih =>
    rw [nodeAt] at hp
    cases hg : t.children.get? i with
    | none => rw [hg] at hp; exact absurd hp (by simp)
    | some c =>
      rw [hg] at hp
      obtain ⟨k, f, s, e, cs⟩ := t
      rw [spanWf] at hwf
      simp only [Bool.and_eq_true] at hwf
      have hc := spanWfList_get s e cs i c hwf.2 hg
      have hrec := ih c hc.2 hp
      refine ⟨le_trans ?_ hrec.1, le_trans hrec.2.1 ?_, hrec.2.2⟩
      · exact hc.1.1
      · exact hc.1.2

/-- Path lookup distributes over path concatenation. -/
theorem nodeAt_append (t : TNode) (q r : List Nat) :
    nodeAt t (q ++ r) = (nodeAt t q).bind (fun u => nodeAt u r) := by
  induction q generalizing t with
  | nil => rw [nodeAt]; simp
  | cons i q' ih =>
    rw [List.cons_append, nodeAt]
    cases hg : t.children.get? i with
    | none => rw [nodeAt, hg]; rfl
    | some c => rw [nodeAt, hg]; exact ih c

/-- The span at an ancestor contains the span at a descendant. -/
theorem nodeAt_prefix_span (t : TNode) (q p : List Nat) (n u : TNode)
    (hwf : spanWf t = true) (hq : q <+: p) (hp : nodeAt t p = some n)
    (hu : nodeAt t q = some u) :
    u.startByte ≤ n.startByte ∧ n.endByte ≤ u.endByte := by
  obtain ⟨r, rfl⟩ := hq
  rw [nodeAt_append, hu] at hp
  have hwu := (nodeAt_span_within q t u hwf hu).2.2
  have := nodeAt_span_within r u n hwu hp
  exact ⟨this.1, this.2.1⟩

/-- A byte span nested in another yields a contiguous sub-segment of the
byte slice. -/
theorem sliceBytes_infix (src : List Nat) (a b c d : Nat)
    (hac : a ≤ c) (hcd : c ≤ d) (hdb : d ≤ b) :
    sliceBytes src c d <:+: sliceBytes src a b := by
  have heq : sliceBytes src c d =
      ((sliceBytes src a b).drop (c - a)).take (d - c) := by
    rw [sliceBytes, sliceBytes, List.drop_take, List.drop_drop]
    have h1 : a + (c - a) = c := by omega
    have h2 : b - a - (c - a) = b - c := by omega
    rw [h1, h2, List.take_take]
    have h3 : min (d - c) (b - c) = d - c := by omega
    rw [h3]
  rw [heq]
  exact (( List.take_prefix _ _).isInfix).trans
    ((List.drop_suffix _ _).isInfix)

/-- A well-formed node has an ordered span. -/
theorem spanWf_start_le_end (n : TNode) (h : spanWf n = true) :
    n.startByte ≤ n.endByte := by
  obtain ⟨k, f, s, e, cs⟩ := n
  rw [spanWf] at h
  simp only [Bool.and_eq_true] at h
  simpa using h.1

/-- C10 (amended).  The candidate the climbing loop settles on is an
ancestor-or-self of the matched leaf, so under the span invariant the
block's byte span contains the leaf's span and the block's raw span bytes
contain the token's bytes as a contiguous segment.  (The printed line
shows the block after newline-flattening, which can rewrite whitespace
inside the token, so the flattened line need not contain the token text
verbatim — see the counterexample.) -/
theorem trep_C10_block_spans_match (t : TNode) (m a : List Nat)
    (src : List Nat) (n : TNode) (hwf : spanWf t = true)
    (hm : nodeAt t m = some n) :
    climb m a <+: m ∧
    ∃ u, nodeAt t (climb m a) = some u ∧
      u.startByte ≤ n.startByte ∧ n.endByte ≤ u.endByte ∧
      sliceBytes src n.startByte n.endByte <:+:
        sliceBytes src u.startByte u.endByte := by
  have hpre := climb_prefix m a
  obtain ⟨r, hr⟩ := hpre
  have hsplit : nodeAt t (climb m a ++ r) = some n := by rw [hr]; exact hm
  rw [nodeAt_append] at hsplit
  cases hu : nodeAt t (climb m a) with
  | none => rw [hu] at hsplit; exact absurd hsplit (by simp)
  | some u =>
    rw [hu] at hsplit
    have hspan := nodeAt_prefix_span t (climb m a) m n u hwf ⟨r, hr⟩ hm hu
    have hn := (nodeAt_span_within m t n hwf hm).2.2
    refine ⟨⟨r, hr⟩, u, rfl, hspan.1, hspan.2, ?_⟩
    exact sliceBytes_infix src u.startByte u.endByte n.startByte n.endByte
      hspan.1 (spanWf_start_le_end n hn) hspan.2

/-- Witness for the amended C10 on the counterexample tree: the block of
the match `x=1` is its grandparent-checked ancestor, and its bytes
contain the token bytes. -/
theorem trep_C10_witness :
    spanWf cxRoot = true ∧
    (climb [0, 1, 0, 0] [0] <+: [0, 1, 0, 0] ∧
     ∃ u, nodeAt cxRoot (climb [0, 1, 0, 0] [0]) = some u ∧
       u.startByte ≤ cxAsg1.startByte ∧ cxAsg1.endByte ≤ u.endByte ∧
       sliceBytes cxSrc cxAsg1.startByte cxAsg1.endByte <:+:
         sliceBytes cxSrc u.startByte u.endByte) :=
  ⟨by decide,
    trep_C10_block_spans_match cxRoot [0, 1, 0, 0] [0] cxSrc cxAsg1
      (by decide) rfl⟩

/-! Tree for the C10 counterexample: `def g(): a\n  b` with a string-like
leaf token whose text spans a newline-indentation run. -/

/-- Name child `g`. -/
def nxName : TNode := .mk "identifier" (some "name") 4 5 []

/-- Leaf token with span [9, 14), text `a\n  b` (a newline and
indentation inside the token). -/
def nxLeaf : TNode := .mk "string" none 9 14 []

/-- Named function holding the leaf directly. -/
def nxFd : TNode := .mk "function_definition" none 0 14 [nxName, nxLeaf]

/-- Root module of the C10 counterexample tree. -/
def nxRoot : TNode := .mk "module" none 0 14 [nxFd]

/-- Bytes of `def g(): a\n  b`. -/
def nxSrc : List Nat :=
  [100, 101, 102, 32, 103, 40, 41, 58, 32, 97, 10, 32, 32, 98]

/-- Counterexample to C10 as stated: the matched token `a\n  b` contains
a newline-whitespace run, so the flattening rewrites it inside the
extracted block and the reported line no longer contains the token text
as a substring (even though the block byte span does contain the token
span). -/
theorem trep_C10_counterexample :
    spanWf nxRoot = true ∧
    isLeafMatch nxRoot ['a'] nxSrc [0, 1] = true ∧
    utf8Text nxSrc nxLeaf.startByte nxLeaf.endByte =
      some ['a', '\n', ' ', ' ', 'b'] ∧
    matched_block nxRoot [0, 1] [0] nxSrc =
      some (['d', 'e', 'f', ' ', 'g', '(', ')', ':', ' ', 'a'] ++ marker ++ ['b']) ∧
    strContains
      (['d', 'e', 'f', ' ', 'g', '(', ')', ':', ' ', 'a'] ++ marker ++ ['b'])
      ['a', '\n', ' ', ' ', 'b'] = false := by
  refine ⟨by decide, by decide, by decide, ?_, by decide⟩
  rw [matched_block]
  have hcl : climb [0, 1] [0] = [0] := by
    rw [climb]
    simp
    rw [climb]
    simp
  rw [hcl]
  show (utf8Text nxSrc 0 14).map format_multiline = _
  have htxt : utf8Text nxSrc 0 14 =
      some ['d', 'e', 'f', ' ', 'g', '(', ')', ':', ' ', 'a', '\n', ' ', ' ', 'b'] := by
    decide
  rw [htxt, Option.map_some']
  have hfmt : format_multiline
      ['d', 'e', 'f', ' ', 'g', '(', ')', ':', ' ', 'a', '\n', ' ', ' ', 'b'] =
      ['d', 'e', 'f', ' ', 'g', '(', ')', ':', ' ', 'a'] ++ marker ++ ['b'] := by
    simp [format_multiline, wsHead, isRegexWs, marker]
  rw [hfmt]

/-! Pipeline claims: the top-level match panic and the abort-on-error
behaviour of the file loop. -/

/-- Leaf `x` for the top-level-match input. -/
def pxLeaf : TNode := .mk "identifier" none 0 1 []

/-- Module whose only content is the top-level token `x`: the match has
no enclosing class or function. -/
def pxRoot : TNode := .mk "module" none 0 1 [pxLeaf]

/-- Source bytes `x`. -/
def pxSrc : List Nat := [120]

/-- C2.  Evaluation of the code at the failing input: a match at top
level (no enclosing named scope) makes `process_file` hit the
`Option::unwrap` of the empty named projection, so the run panics and no
report line is produced — not the empty-scope-chain line the claim
describes. -/
theorem trep_C2_top_level_match_panics :
    process_file pxRoot pxSrc ['t'] ['x'] = ([], some .unwrapPanic) := by
  have hch : collect_parent_hierarchy [0] = [[], [0]] := by
    simp [collect_parent_hierarchy, chainLoop, parentPath]
  rw [process_file]
  rw [show find_leaf_nodes_with_text pxRoot ['x'] pxSrc = Except.ok [[0]] from rfl]
  simp only [processMatches.eq_def]
  rw [hch]
  rfl

/-- A file whose root is a single leaf of one invalid UTF-8 byte. -/
def badTree : TNode := .mk "module" none 0 1 []

/-- Input file that fails to decode at its matched span. -/
def badFile : PFile := ⟨['b'], some badTree, [255]⟩

/-- Input file that parses and produces one report line for query `x`. -/
def goodFile : PFile := ⟨['g'], some egRoot, egSrc⟩

/-- The per-match report loop only ever stops on a panic, never on a
decode or parse error: those arise before any line is printed. -/
theorem processMatches_no_decode_error (root : TNode) (src : List Nat)
    (fname : List Char) (ms : List (List Nat)) :
    (processMatches root src fname ms).2 ≠ some .decodeError ∧
    (processMatches root src fname ms).2 ≠ some .parseError := by
  induction ms with
  | nil => rw [processMatches]; exact ⟨by simp, by simp⟩
  | cons m rest ih =>
    rw [processMatches]
    split
    · exact ⟨by simp, by simp⟩
    · split
      · exact ⟨by simp, by simp⟩
      · simpa using ih

/-- C1 (amended).  A per-file error does not merely skip the file: it
stops the entire run.  Whatever error the head file produces (parse
failure, decode error, or a panic), the run on `f :: rest` returns only
the lines the head file printed before stopping, together with that
error, and the remaining files are never processed; for a decode error
or parse failure the head file has printed nothing. -/
theorem trep_C1_error_aborts_run (f : PFile) (rest : List PFile)
    (p : List Char) (e : RunError) (h : (fileOutcome f p).2 = some e) :
    runFiles (f :: rest) p = ((fileOutcome f p).1, some e) ∧
    (e = .decodeError ∨ e = .parseError → (fileOutcome f p).1 = []) := by
  constructor
  · rw [runFiles]
    cases hfo : fileOutcome f p with
    | mk ls o =>
      rw [hfo] at h
      simp only at h
      subst h
      simp
  · intro he
    rw [fileOutcome] at h ⊢
    cases hp : f.parsed with
    | none => rfl
    | some tree =>
      rw [hp] at h
      simp only at h ⊢
      rw [process_file.eq_def] at h ⊢
      cases hf : find_leaf_nodes_with_text tree p f.src with
      | error e' => rfl
      | ok ms =>
        rw [hf] at h
        have hno := processMatches_no_decode_error tree f.src f.name ms
        cases he with
        | inl hd => rw [hd] at h; exact absurd h hno.1
        | inr hpar => rw [hpar] at h; exact absurd h hno.2

/-- Witness for the amended C1: the decode-failing file aborts the run
even though a file with a reportable match follows. -/
theorem trep_C1_witness :
    (fileOutcome badFile ['x']).2 = some .decodeError ∧
    runFiles [badFile, goodFile] ['x'] = ([], some .decodeError) := by
  have h : (fileOutcome badFile ['x']).2 = some .decodeError := rfl
  have habort := trep_C1_error_aborts_run badFile [goodFile] ['x'] .decodeError h
  refine ⟨h, ?_⟩
  rw [habort.1]
  rfl

/-- Counterexample to C1 as stated: with the decode-failing file first,
the run returns no lines at all and stops with the decode error, although
the same run on the second file alone produces its report line — the
failing file is not skipped, it aborts the whole run. -/
theorem trep_C1_counterexample :
    runFiles [badFile, goodFile] ['x'] = ([], some .decodeError) ∧
    runFiles [goodFile] ['x'] =
      ([['g', ' ', 'f', ':', ' ', 'd', 'e', 'f', ' ', 'f', '(', ')', ':', ' ', 'x']],
        none) := by
  constructor
  · rfl
  · have hch : collect_parent_hierarchy [0, 1] = [[], [0], [0, 1]] := by
      simp [collect_parent_hierarchy, chainLoop, parentPath]
    have hcl : climb [0, 1] [0] = [0] := by simp [climb]
    have hmb : matched_block egRoot [0, 1] [0] egSrc =
        some ['d', 'e', 'f', ' ', 'f', '(', ')', ':', ' ', 'x'] := by
      rw [matched_block, hcl]
      show (utf8Text egSrc 0 10).map format_multiline = _
      rw [show utf8Text egSrc 0 10 =
        some ['d', 'e', 'f', ' ', 'f', '(', ')', ':', ' ', 'x'] from by decide]
      rw [Option.map_some']
      rw [format_multiline_of_no_newline _ (by decide)]
    have hpm : processMatches egRoot egSrc ['g'] [[0, 1]] =
        ([['g', ' ', 'f', ':', ' ', 'd', 'e', 'f', ' ', 'f', '(', ')', ':', ' ', 'x']],
          none) := by
      simp only [processMatches.eq_def]
      rw [hch]
      show (match matched_block egRoot [0, 1] [0] egSrc with
        | none => ([], some RunError.slicePanic)
        | some line =>
          (reportLine ['g'] ['f'] line :: (processMatches egRoot egSrc ['g'] []).1,
            (processMatches egRoot egSrc ['g'] []).2)) = _
      rw [hmb]
      rfl
    have hfo : fileOutcome goodFile ['x'] =
        ([['g', ' ', 'f', ':', ' ', 'd', 'e', 'f', ' ', 'f', '(', ')', ':', ' ', 'x']],
          none) := by
      rw [fileOutcome]
      show process_file egRoot egSrc ['g'] ['x'] = _
      rw [process_file.eq_def]
      rw [show find_leaf_nodes_with_text egRoot ['x'] egSrc =
        Except.ok [[0, 1]] from rfl]
      exact hpm
    simp only [runFiles.eq_def]
    rw [hfo]
    simp

/-! The leaf-matcher characterization: a successful search returns
exactly the pre-order list of leaf paths whose text contains the query. -/

/-- Looking one child below a node turns the match predicate of a
prefixed path into the match predicate of the child. -/
theorem isLeafMatch_cons (u c : TNode) (q : List Char) (src : List Nat)
    (i : Nat) (hget : u.children.get? i = some c) (p : List Nat) :
    isLeafMatch u q src (i :: p) = isLeafMatch c q src p := by
  rw [isLeafMatch, isLeafMatch, nodeAt, hget]

/-- A dropped sibling list pins down the child found at the head index. -/
theorem get_of_drop_cons (l : List TNode) (i : Nat) (c : TNode)
    (rest : List TNode) (h : l.drop i = c :: rest) :
    l.get? i = some c := by
  have hh := List.head?_drop l i
  rw [h] at hh
  rw [List.get?_eq_getElem?]
  simpa using hh.symm

/-- A dropped sibling list also pins down the next drop. -/
theorem drop_succ_of_drop_cons (l : List TNode) (i : Nat) (c : TNode)
    (rest : List TNode) (h : l.drop i = c :: rest) :
    l.drop (i + 1) = rest := by
  rw [← List.drop_drop, h]
  rfl

mutual

/-- A successful leaf search returns the pre-order path list filtered by
the leaf-match predicate. -/
theorem find_leaf_ok_filter (t : TNode) (q : List Char) (src : List Nat)
    (ms : List (List Nat)) (h : find_leaf_nodes_with_text t q src = .ok ms) :
    ms = (preorderPaths t).filter (isLeafMatch t q src) := by
  cases t with
  | mk k f s e cs =>
    cases cs with
    | nil =>
      rw [find_leaf_nodes_with_text] at h
      cases hd : utf8Text src s e with
      | none => rw [hd] at h; exact absurd h (by simp)
      | some txt =>
        rw [hd] at h
        simp only [Except.ok.injEq] at h
        rw [preorderPaths, preorderPathsList, List.filter]
        have hpred : isLeafMatch (TNode.mk k f s e []) q src [] = strContains txt q := by
          rw [isLeafMatch, nodeAt]
          simp [TNode.children, TNode.startByte, TNode.endByte, hd]
        rw [hpred, ← h]
        cases strContains txt q <;> simp
    | cons c cs' =>
      rw [find_leaf_nodes_with_text] at h
      have hmain := findLeafChildren_ok_filter (TNode.mk k f s e (c :: cs'))
        (c :: cs') 0 q src ms rfl h
      rw [preorderPaths, hmain, List.filter]
      have hpred : isLeafMatch (TNode.mk k f s e (c :: cs')) q src [] = false := by
        rw [isLeafMatch, nodeAt]
        simp [TNode.children]
      rw [hpred]

/-- Child-loop version of the leaf-search characterization: the sibling
list is the drop of the parent children at the running index. -/
theorem findLeafChildren_ok_filter (u : TNode) (cs : List TNode) (i : Nat)
    (q : List Char) (src : List Nat) (ms : List (List Nat))
    (hdrop : u.children.drop i = cs)
    (h : findLeafChildren cs i q src = .ok ms) :
    ms = (preorderPathsList cs i).filter (isLeafMatch u q src) := by
  cases cs with
  | nil =>
    rw [findLeafChildren] at h
    simp only [Except.ok.injEq] at h
    rw [preorderPathsList, ← h]
    rfl
  | cons c rest =>
    rw [findLeafChildren] at h
    cases h1 : find_leaf_nodes_with_text c q src with
    | error e1 => rw [h1] at h; exact absurd h (by simp)
    | ok ms1 =>
      rw [h1] at h
      cases h2 : findLeafChildren rest (i + 1) q src with
      | error e2 => rw [h2] at h; exact absurd h (by simp)
      | ok ms2 =>
        rw [h2] at h
        simp only [Except.ok.injEq] at h
        have hget : u.children.get? i = some c := get_of_drop_cons _ i c rest hdrop
        have hdrop' : u.children.drop (i + 1) = rest :=
          drop_succ_of_drop_cons _ i c rest hdrop
        have ih1 := find_leaf_ok_filter c q src ms1 h1
        have ih2 := findLeafChildren_ok_filter u rest (i + 1) q src ms2 hdrop' h2
        rw [preorderPathsList, List.filter_append, List.filter_map]
        have hcong : (preorderPaths c).filter (isLeafMatch u q src ∘ (fun p => i :: p)) =
            (preorderPaths c).filter (isLeafMatch c q src) :=
          List.filter_congr (fun p _ => by
            simp only [Function.comp]
            rw [isLeafMatch_cons u c q src i hget p])
        rw [hcong, ← ih1, ← ih2, ← h]

end

/-- Every path below a given sibling can be found in the pre-order
enumeration of the sibling list, at its shifted index. -/
theorem mem_preorderPathsList_of_get (cs : List TNode) (i0 j : Nat)
    (c : TNode) (p' : List Nat) (hget : cs.get? j = some c)
    (hmem : p' ∈ preorderPaths c) :
    (i0 + j) :: p' ∈ preorderPathsList cs i0 := by
  induction cs generalizing j i0 with
  | nil => simp at hget
  | cons c0 rest ih =>
    rw [preorderPathsList]
    cases j with
    | zero =>
      rw [List.get?_cons_zero] at hget
      cases hget
      apply List.mem_append_left
      simpa using List.mem_map_of_mem (fun p => i0 :: p) hmem
    | succ j' =>
      rw [List.get?_cons_succ] at hget
      apply List.mem_append_right
      have := ih (i0 + 1) j' hget
      have harith : i0 + 1 + j' = i0 + (j' + 1) := by omega
      rw [harith] at this
      exact this

/-- A path that resolves to a node occurs in the pre-order enumeration. -/
theorem mem_preorderPaths_of_nodeAt (p : List Nat) (t n : TNode)
    (h : nodeAt t p = some n) : p ∈ preorderPaths t := by
  induction p generalizing t with
  | nil =>
    cases t with
    | mk k f s e cs => rw [preorderPaths]; simp
  | cons i p' ih =>
    rw [nodeAt] at h
    cases hget : t.children.get? i with
    | none => rw [hget] at h; exact absurd h (by simp)
    | some c =>
      rw [hget] at h
      have hmem := ih c h
      cases t with
      | mk k f s e cs =>
        rw [preorderPaths]
        apply List.mem_cons_of_mem
        have := mem_preorderPathsList_of_get cs 0 i c p'
          (by simpa [TNode.children] using hget) hmem
        simpa using this

/-- C3.  When the leaf search succeeds, its result is exactly the
pre-order (depth-first, children left-to-right) enumeration of paths
filtered by the leaf-match predicate, and a path is returned iff it
denotes a childless node whose span text contains the query as a
contiguous case-sensitive substring. -/
theorem trep_C3_find_leaf_matches_spec (t : TNode) (q : List Char)
    (src : List Nat) (ms : List (List Nat))
    (h : find_leaf_nodes_with_text t q src = .ok ms) :
    ms = (preorderPaths t).filter (isLeafMatch t q src) ∧
    ∀ p, p ∈ ms ↔ isLeafMatch t q src p = true := by
  have hfilter := find_leaf_ok_filter t q src ms h
  refine ⟨hfilter, fun p => ?_⟩
  rw [hfilter, List.mem_filter]
  constructor
  · exact fun hx => hx.2
  · intro hx
    refine ⟨?_, hx⟩
    rw [isLeafMatch] at hx
    cases hn : nodeAt t p with
    | none => rw [hn] at hx; simp at hx
    | some n => exact mem_preorderPaths_of_nodeAt p t n hn

/-- Witness for C3 on the example tree: the search for `x` succeeds with
exactly the leaf path of the identifier `x`, in pre-order. -/
theorem trep_C3_witness :
    find_leaf_nodes_with_text egRoot ['x'] egSrc = .ok [[0, 1]] ∧
    [[0, 1]] = (preorderPaths egRoot).filter (isLeafMatch egRoot ['x'] egSrc) ∧
    ([0, 1] ∈ [[0, 1]] ↔ isLeafMatch egRoot ['x'] egSrc [0, 1] = true) := by
  have h : find_leaf_nodes_with_text egRoot ['x'] egSrc = .ok [[0, 1]] := rfl
  have hspec := trep_C3_find_leaf_matches_spec egRoot ['x'] egSrc [[0, 1]] h
  exact ⟨h, hspec.1, hspec.2 [0, 1]⟩

end Trep
